import Mathlib

/-!
# flynn-cli: command dispatch and application / server context resolution

A shallow embedding of `main.go`, `create.go` and `login.go`.

Go strings are modelled as lists of characters (`Str`).  The process
environment, the local git configuration and the configuration file are
explicit inputs (`World`); the package-level variables `apiURL`, `flagApp`
and `config` are an explicit record (`Globals`).  Library calls
(`strings.Trim`, `regexp`, `fmt.Errorf`, `flag.FlagSet.Parse`) are modelled
by executable definitions that follow the documented behaviour of the Go
standard library.
-/

namespace Flynn

/-- A Go string, as its sequence of characters. -/
abbrev Str := List Char

/-! ## `strings` -/

/-- Go `strings.TrimLeft(s, cutset)`: drop every leading character of `cutset`. -/
def trimLeft (cutset : Str) (s : Str) : Str :=
  s.dropWhile (fun c => cutset.contains c)

/-- Go `strings.TrimRight(s, cutset)`: drop every trailing character of `cutset`. -/
def trimRight (cutset : Str) (s : Str) : Str :=
  (s.reverse.dropWhile (fun c => cutset.contains c)).reverse

/-- Go `strings.Trim(s, cutset)`: drop leading and trailing characters of `cutset`. -/
def trim (cutset : Str) (s : Str) : Str :=
  trimRight cutset (trimLeft cutset s)

/-! ## `regexp`: a backtracking matcher with leftmost-first semantics -/

/-- The regular-expression constructs used by `appFromRemoteUrlRegex`. -/
inductive Re where
  /-- A literal text. -/
  | lit (t : Str) : Re
  /-- A greedy repetition `c{lo,hi}` of a one-character class (`hi = none`: unbounded). -/
  | cls (p : Char → Bool) (lo : Nat) (hi : Option Nat) : Re
  /-- A greedy optional group `(?:r)?`. -/
  | opt (r : Re) : Re
  /-- Concatenation. -/
  | seq (a b : Re) : Re
  /-- Alternation `a|b`, the left branch is preferred. -/
  | alt (a b : Re) : Re
  /-- The capturing group `(r)`. -/
  | cap (r : Re) : Re

/-- Try `f hi`, `f (hi-1)`, ..., `f lo` and return the first success. -/
def tryDown {β : Type} (f : Nat → Option β) (lo : Nat) : Nat → Option β
  | 0 => if lo = 0 then f 0 else none
  | n + 1 =>
    if lo ≤ n + 1 then
      match f (n + 1) with
      | some x => some x
      | none => tryDown f lo n
    else none

/-- Number of leading characters of `s` in the class `p`. -/
def lead (p : Char → Bool) (s : Str) : Nat :=
  (s.takeWhile p).length

/-- The largest repetition count a greedy `c{lo,hi}` can take on `s`. -/
def maxCount (p : Char → Bool) (hi : Option Nat) (s : Str) : Nat :=
  match hi with
  | none => lead p s
  | some m => min m (lead p s)

/-- Backtracking match of `r` at the start of `s`, in continuation-passing
style: `k rest cap` is tried on every way of matching `r`, in priority order
(greedy repetitions longest first, alternatives left to right), and the first
success is returned.  `cap` is the text of the capturing group so far. -/
def Re.run {β : Type} : Re → Str → Option Str → (Str → Option Str → Option β) → Option β
  | .lit t, s, c, k => if t.isPrefixOf s then k (s.drop t.length) c else none
  | .cls p lo hi, s, c, k => tryDown (fun n => k (s.drop n) c) lo (maxCount p hi s)
  | .opt r, s, c, k =>
    match r.run s c k with
    | some x => some x
    | none => k s c
  | .seq a b, s, c, k => a.run s c (fun s1 c1 => b.run s1 c1 k)
  | .alt a b, s, c, k =>
    match a.run s c k with
    | some x => some x
    | none => b.run s c k
  | .cap r, s, c, k => r.run s c (fun s1 _ => k s1 (some (s.take (s.length - s1.length))))

/-- The match of `re` that starts exactly at the beginning of `s`:
the matched text and the text of group 1 (empty when it did not take part). -/
def Re.matchAt (re : Re) (s : Str) : Option (Str × Str) :=
  re.run s none (fun rest c => some (s.take (s.length - rest.length), c.getD []))

/-- Go `(*Regexp).FindStringSubmatch`: the leftmost match, `none` for Go's `nil`. -/
def Re.findStringSubmatch (re : Re) : Str → Option (Str × Str)
  | [] => re.matchAt []
  | ch :: s =>
    match re.matchAt (ch :: s) with
    | some m => some m
    | none => re.findStringSubmatch s

/-- The class `\w`: ASCII letters, digits and underscore. -/
def isWord (c : Char) : Bool := c.isAlphanum || c == '_'

/-- The class `\d`: ASCII digits. -/
def isDigit (c : Char) : Bool := c.isDigit

/-- The class `.`: every character but the newline. -/
def isDot (c : Char) : Bool := c != '\n'

/-- The sub-pattern `(?::\d+)?`. -/
def rePort : Re := .opt (.seq (.lit ":".toList) (.cls isDigit 1 none))

/-- The branch `localhost(?::\d+)?/`. -/
def reLocalhost : Re :=
  .seq (.lit "localhost".toList) (.seq rePort (.lit "/".toList))

/-- The branch `\d{1,3}.\d{1,3}.\d{1,3}.\d{1,3}(?::\d+)?/` (the dots are unescaped). -/
def reDotted : Re :=
  .seq (.cls isDigit 1 (some 3)) (.seq (.cls isDot 1 (some 1))
  (.seq (.cls isDigit 1 (some 3)) (.seq (.cls isDot 1 (some 1))
  (.seq (.cls isDigit 1 (some 3)) (.seq (.cls isDot 1 (some 1))
  (.seq (.cls isDigit 1 (some 3)) (.seq rePort (.lit "/".toList))))))))

/-- The branch `.+:`. -/
def reScp : Re := .seq (.cls isDot 1 none) (.lit ":".toList)

/-- The group `(?:localhost(?::\d+)?/|\d{1,3}.\d{1,3}.\d{1,3}.\d{1,3}(?::\d+)?/|.+:)`. -/
def reHost : Re := .alt reLocalhost (.alt reDotted reScp)

/-- The capturing group `(.+)`. -/
def reApp : Re := .cap (.cls isDot 1 none)

/-- The package variable `appFromRemoteUrlRegex`, the compiled pattern
`(?:ssh://)?(?:\w+)@(?:localhost(?::\d+)?/|\d{1,3}.\d{1,3}.\d{1,3}.\d{1,3}(?::\d+)?/|.+:)(.+)`. -/
def appFromRemoteUrlRegex : Re :=
  .seq (.opt (.lit "ssh://".toList)) (.seq (.cls isWord 1 none) (.seq (.lit "@".toList)
  (.seq reHost reApp)))


/-! ## `fmt`: formatting with no operands -/

/-- An `error` value of the program. -/
inductive GoError where
  /-- The value of `fmt.Errorf(format, operands...)`. -/
  | errorf (format : Str) (operands : List Str) : GoError
  /-- An `*exec.ExitError` carrying the exit status of the child process. -/
  | exitError (status : Nat) : GoError
  /-- Any other error, by its message. -/
  | other (msg : Str) : GoError
  deriving DecidableEq

/-- The flag characters of a formatting directive. -/
def isFmtFlag (c : Char) : Bool :=
  c == '#' || c == '0' || c == '+' || c == '-' || c == ' '

/-- The digit loop of `fmt.parsenum`; `none` when the number overflows. -/
def parsenumAux : Str → Nat → Bool → Option (Nat × Bool × Str)
  | [], num, isnum => some (num, isnum, [])
  | c :: s, num, isnum =>
    if c.isDigit then
      if num > 1000000 then none else parsenumAux s (num * 10 + (c.toNat - 48)) true
    else some (num, isnum, c :: s)

/-- Go `fmt.parsenum` on the text up to `end`: the number, whether one was
present, and what is left to read (nothing after an overflow). -/
def parsenum (s : Str) : Nat × Bool × Str :=
  match parsenumAux s 0 false with
  | some r => r
  | none => (0, false, [])

/-- Go `fmt.parseArgNumber` on a text that starts with `[`: how many
characters to consume and whether a bracketed number was read. -/
def parseArgNumber (s : Str) : Nat × Bool :=
  if s.length < 3 then (1, false)
  else
    let body := s.drop 1
    if body.contains ']' then
      let inner := body.takeWhile (fun c => c != ']')
      let r := parsenum inner
      if r.2.1 && r.2.2.isEmpty then (inner.length + 2, true) else (inner.length + 2, false)
    else (1, false)

/-- Go `(*pp).argNumber` when there are no operands: the text left, whether an
index was found, and the `goodArgNum` flag (no index is ever in range). -/
def argNumber (s : Str) (good : Bool) : Str × Bool × Bool :=
  match s with
  | '[' :: _ =>
    let r := parseArgNumber s
    (s.drop r.1, r.2, false)
  | _ => (s, false, good)

/-- One formatting directive of `(*pp).doPrintf` with no operands, read after
its `%`: the text it writes and the rest of the format. -/
def directive (s0 : Str) : Str × Str :=
  let s1 := s0.dropWhile isFmtFlag
  let a1 := argNumber s1 true
  -- width
  let w : Str × Str × Bool × Bool :=
    match a1.1 with
    | '*' :: t => ("%!(BADWIDTH)".toList, t, false, a1.2.2)
    | t =>
      let n := parsenum t
      ([], n.2.2, a1.2.1, a1.2.2 && !(a1.2.1 && n.2.1))
  -- precision
  let p : Str × Str × Bool × Bool :=
    match w.2.1 with
    | '.' :: t =>
      let a2 := argNumber t (w.2.2.2 && !w.2.2.1)
      match a2.1 with
      | '*' :: u => ("%!(BADPREC)".toList, u, false, a2.2.2)
      | u => ([], (parsenum u).2.2, a2.2.1, a2.2.2)
    | t => ([], t, w.2.2.1, w.2.2.2)
  let a3 := if p.2.2.1 then (p.2.1, p.2.2.1, p.2.2.2) else argNumber p.2.1 p.2.2.2
  match a3.1 with
  | [] => (w.1 ++ p.1 ++ "%!(NOVERB)".toList, [])
  | verb :: t =>
    if verb = '%' then (w.1 ++ p.1 ++ ['%'], t)
    else if a3.2.2 then (w.1 ++ p.1 ++ "%!".toList ++ [verb] ++ "(MISSING)".toList, t)
    else (w.1 ++ p.1 ++ "%!".toList ++ [verb] ++ "(BADINDEX)".toList, t)

/-- The loop of `(*pp).doPrintf` with no operands: plain text is copied, a `%`
starts a directive; `skip` counts the characters a directive has consumed. -/
def doPrintf : Str → Nat → Str
  | [], _ => []
  | _ :: s, skip + 1 => doPrintf s skip
  | c :: s, 0 =>
    if c = '%' then
      let d := directive s
      d.1 ++ doPrintf s (s.length - d.2.length)
    else c :: doPrintf s 0

/-- Go `fmt.Sprintf(format)` with no operands. -/
def sprintf0 (format : Str) : Str := doPrintf format 0

/-- The text of an error (`Error()`); formatting with operands is not modelled
(`none`). -/
def GoError.text0 : GoError → Option Str
  | .errorf format [] => some (sprintf0 format)
  | .errorf _ (_ :: _) => none
  | .exitError status => some ("exit status ".toList ++ (Nat.repr status).toList)
  | .other msg => some msg

/-! ## Configuration, environment and globals -/

/-- The struct `server`. -/
structure server where
  GitHost : Str
  ApiUrl : Str
  ApiKey : Str
  ApiTlsPin : Str
  deriving DecidableEq

/-- The struct `Config`. -/
structure Config where
  Servers : List server
  deriving DecidableEq

/-- What the process reads from outside. -/
structure World where
  /-- `os.Getenv`: the empty string for an unset variable. -/
  getenv : Str → Str
  /-- `exec.Command("git", "config", key).Output()`. -/
  gitConfig : Str → Except GoError Str
  /-- `os.Getwd()`. -/
  getwd : Str
  /-- `toml.DecodeFile(configFilePath, &config)`: `none` when it fails. -/
  configFile : Option Config

/-- The package-level variables `apiURL`, `flagApp` and `config`. -/
structure Globals where
  apiURL : Str
  flagApp : Str
  config : Config
  deriving DecidableEq

/-- The initial values of the package-level variables. -/
def Globals.init : Globals :=
  { apiURL := "http://localhost:1200".toList, flagApp := [], config := ⟨[]⟩ }

/-! ## Git remotes and the application name -/

/-- Go `isNotFound`: an exit error with status 1. -/
def isNotFound : GoError → Bool
  | .exitError status => status == 1
  | _ => false

/-- Go `urlFromGitRemote`. -/
def urlFromGitRemote (w : World) (remote : Str) : Str × Option GoError :=
  match w.gitConfig ("remote.".toList ++ remote ++ ".url".toList) with
  | .error err =>
    if isNotFound err then
      ([], some (.errorf ("could not find git remote ".toList ++ remote ++ " in %s".toList) [w.getwd]))
    else ([], some err)
  | .ok b => (b, none)

/-- Go `gitRemoteUrlFromApp`; `none` is the run-time panic of `config.Servers[0]`
on an empty server list. -/
def gitRemoteUrlFromApp (config : Config) (name : Str) : Option (Str × Option GoError) :=
  match config.Servers with
  | [] => none
  | s :: _ => some ("git@".toList ++ s.GitHost ++ ":".toList ++ name, none)

/-- Go `appFromGitRemoteUrl`. -/
def appFromGitRemoteUrl (url : Str) : Str × Option GoError :=
  let url := trim "\r\n ".toList url
  match appFromRemoteUrlRegex.findStringSubmatch url with
  | none => ([], some (.errorf ("could not find app name in ".toList ++ url ++ " git remote".toList) []))
  | some m => (m.2, none)

/-- Go `appFromGitRemote`: both errors are dropped and `nil` is returned. -/
def appFromGitRemote (w : World) (remote : Str) : Str × Option GoError :=
  let url := (urlFromGitRemote w remote).1
  let app := (appFromGitRemoteUrl url).1
  (app, none)

/-- Go `app`. -/
def app (w : World) (g : Globals) : Str × Option GoError :=
  if g.flagApp ≠ [] then (g.flagApp, none)
  else if w.getenv "FLYNN_APP".toList ≠ [] then (w.getenv "FLYNN_APP".toList, none)
  else
    let r := appFromGitRemote w "flynn".toList
    match r.2 with
    | some err => ([], some err)
    | none => (r.1, none)

/-! ## `flag`: parsing the flags of one command -/

/-- One flag defined in a `flag.FlagSet`. -/
structure FlagDef where
  /-- The name of the flag. -/
  name : Str
  /-- Whether its value is a boolean flag, which needs no argument. -/
  isBool : Bool
  /-- Whether `Value.Set` accepts the given text. -/
  set : Str → Bool

/-- Go `flag.ErrHelp`. -/
def errHelp : GoError := .other "flag: help requested".toList

/-- The value written as `-name=value`: the `=` is searched from the second
character on. -/
def flagValue (name : Str) : Str × Option Str :=
  match name with
  | [] => ([], none)
  | c :: t =>
    if t.contains '=' then
      (c :: t.takeWhile (fun x => x != '='), some ((t.dropWhile (fun x => x != '=')).drop 1))
    else (c :: t, none)

/-- The flag text without its one or two leading minus signs. -/
def flagName (s : Str) : Str :=
  match s with
  | '-' :: '-' :: t => t
  | _ => s.drop 1

/-- Go `(*FlagSet).Parse` followed by `(*FlagSet).Args`, for a flag set with
`ContinueOnError`: the positional arguments left over, or the parse error. -/
def flagParse (formal : List FlagDef) : List Str → Except GoError (List Str)
  | [] => .ok []
  | s :: rest =>
    if s.length < 2 ∨ s.head? ≠ some '-' then .ok (s :: rest)
    else if s = "--".toList then .ok rest
    else
      let name := flagName s
      if name = [] ∨ name.head? = some '-' ∨ name.head? = some '=' then
        .error (.errorf "bad flag syntax: %s".toList [s])
      else
        let nv := flagValue name
        match formal.find? (fun d => d.name = nv.1) with
        | none =>
          if nv.1 = "help".toList ∨ nv.1 = "h".toList then .error errHelp
          else .error (.errorf "flag provided but not defined: -%s".toList [nv.1])
        | some d =>
          if d.isBool then
            match nv.2 with
            | some v =>
              if d.set v then flagParse formal rest
              else .error (.errorf "invalid boolean value %q for -%s: %v".toList [v, nv.1])
            | none => flagParse formal rest
          else
            match nv.2 with
            | some v =>
              if d.set v then flagParse formal rest
              else .error (.errorf "invalid value %q for flag -%s: %v".toList [v, nv.1])
            | none =>
              match rest with
              | [] => .error (.errorf "flag needs an argument: -%s".toList [nv.1])
              | v :: rest1 =>
                if d.set v then flagParse formal rest1
                else .error (.errorf "invalid value %q for flag -%s: %v".toList [v, nv.1])

/-! ## Commands -/

/-- The struct `Command`.  `Run` is the name of the handler function
(`none` for `nil`), `Flag` the flags defined in the command's flag set. -/
structure Command where
  Run : Option Str
  Flag : List FlagDef
  Usage : Str
  Short : Str
  Long : Str

/-- Go `(*Command).Name`: the usage text up to its first space. -/
def Command.Name (c : Command) : Str :=
  c.Usage.takeWhile (fun x => x != ' ')

/-- Go `(*Command).Runnable`. -/
def Command.Runnable (c : Command) : Bool := c.Run.isSome

/-- The variable `cmdLogin` of `login.go`. -/
def cmdLogin : Command :=
  { Run := some "runLogin".toList, Flag := [], Usage := "login".toList,
    Short := "login to a Flynn instance".toList,
    Long := "Login to a Flynn instance by providing some required information".toList }

/-- The variable `cmdCreate` of `create.go`. -/
def cmdCreate : Command :=
  { Run := some "runCreate".toList, Flag := [], Usage := "create APP".toList,
    Short := "create a Flynn app".toList,
    Long := "Creates a Flynn remote in your current git repository to push an app to".toList }

/-- Modelled from the spec: a command of the registry whose declaration is in a
file that is not part of the sources at hand (`cmdHelp`, `cmdRun`, `cmdPs`,
`cmdLogs`, `cmdScale`, `cmdDomain`); the spec names it a recognized, runnable
command, its usage text is taken to be its name and no flag is assumed. -/
def cmdNamed (name : Str) (handler : Str) : Command :=
  { Run := some handler, Flag := [], Usage := name, Short := [], Long := [] }

/-- The variable `commands`, in the order of `main.go`. -/
def commands : List Command :=
  [ cmdNamed "help".toList "runHelp".toList,
    cmdLogin,
    cmdCreate,
    cmdNamed "run".toList "runRun".toList,
    cmdNamed "ps".toList "runPs".toList,
    cmdNamed "logs".toList "runLogs".toList,
    cmdNamed "scale".toList "runScale".toList,
    cmdNamed "domain".toList "runDomain".toList ]

/-! ## `main` -/

/-- How `main` ends. -/
inductive Outcome where
  /-- The call `os.Exit(code)` made by `main` itself. -/
  | exit (code : Nat) : Outcome
  /-- Modelled from the spec: the function `usage` (not part of the sources at
  hand) shows the usage text and ends the process with a non-zero status;
  `unknown` is the name reported as an unknown command before, if any. -/
  | usage (unknown : Option Str) : Outcome
  /-- The handler `handler` was called with the positional arguments `args`,
  and `main` returned. -/
  | ran (handler : Str) (args : List Str) : Outcome
  deriving DecidableEq

/-- The first step of `main`: the `-a APP` prefix. -/
def flagPhase (w : World) (g : Globals) (args : List Str) : Globals × List Str :=
  match args with
  | a0 :: a1 :: rest =>
    if "-a".toList = a0 then
      let g1 := { g with flagApp := a1 }
      let r := appFromGitRemote w g1.flagApp
      match r.2 with
      | none => ({ g1 with flagApp := r.1 }, rest)
      | some _ => (g1, rest)
    else (g, args)
  | _ => (g, args)

/-- The match test of the server scan of `main`. -/
def serverMatches (w : World) (serv : server) : Bool :=
  (urlFromGitRemote w serv.GitHost).1 = serv.GitHost

/-- The server scan of `main`: every matching server overwrites `apiURL`. -/
def apiScan (w : World) (servers : List server) (apiURL : Str) : Str :=
  servers.foldl (fun u serv => if serverMatches w serv then serv.ApiUrl else u) apiURL

/-- The second step of `main`: the API base URL. -/
def apiPhase (w : World) (g : Globals) : Globals :=
  let s := w.getenv "FLYNN_API_URL".toList
  if s ≠ [] then { g with apiURL := trimRight "/".toList s }
  else { g with apiURL := apiScan w g.config.Servers g.apiURL }

/-- The command loop of `main` for the command name `name` and the arguments
`rest` after it. -/
def runCommand (name : Str) (rest : List Str) : List Command → Outcome
  | [] => .usage (some name)
  | cmd :: cmds =>
    match (if cmd.Name = name then cmd.Run else none) with
    | some handler =>
      match flagParse cmd.Flag rest with
      | .error _ => .exit 2
      | .ok positional => .ran handler positional
    | none => runCommand name rest cmds

/-- The last step of `main`: dispatch over the registry `cmds`. -/
def dispatch (cmds : List Command) (args : List Str) : Outcome :=
  match args with
  | [] => .usage none
  | name :: rest => runCommand name rest cmds

/-- Go `main` on the argument vector `os.Args[1:]`: the package-level
variables at the time the handler runs (or the process ends) and the way
`main` ends. -/
def main (w : World) (argv : List Str) : Globals × Outcome :=
  match w.configFile with
  | none => (Globals.init, .exit 2)
  | some cfg =>
    let g0 := { Globals.init with config := cfg }
    let f := flagPhase w g0 argv
    let g2 := apiPhase w f.1
    (g2, dispatch commands f.2)

/-! ## The URL shapes of the specification -/

/-- The optional scheme `ssh://` of a remote URL. -/
def sshPrefix (ssh : Bool) : Str := if ssh then "ssh://".toList else []

/-- The optional port `:port` of a remote URL. -/
def portSuffix : Option Str → Str
  | none => []
  | some p => ':' :: p

/-- The shape `[ssh://]user@localhost[:port]/app`. -/
def localhostUrl (ssh : Bool) (user : Str) (port : Option Str) (app : Str) : Str :=
  sshPrefix ssh ++ (user ++ '@' :: ("localhost".toList ++ (portSuffix port ++ '/' :: app)))

/-- The shape `[ssh://]user@d.d.d.d[:port]/app`. -/
def dottedUrl (ssh : Bool) (user d1 d2 d3 d4 : Str) (port : Option Str) (app : Str) : Str :=
  sshPrefix ssh ++ (user ++ '@' :: (d1 ++ '.' :: (d2 ++ '.' :: (d3 ++ '.' :: (d4 ++
    (portSuffix port ++ '/' :: app))))))

/-- The shape `[ssh://]user@host:app`. -/
def scpUrl (ssh : Bool) (user host app : Str) : Str :=
  sshPrefix ssh ++ (user ++ '@' :: (host ++ ':' :: app))

/-- A user name: one or more word characters. -/
def IsUser (u : Str) : Prop := u ≠ [] ∧ ∀ ch ∈ u, isWord ch = true

/-- A numeric port: one or more digits. -/
def IsPort (p : Str) : Prop := p ≠ [] ∧ ∀ ch ∈ p, isDigit ch = true

/-- One part of a dotted quad: one to three digits. -/
def IsOctet (d : Str) : Prop := 1 ≤ d.length ∧ d.length ≤ 3 ∧ ∀ ch ∈ d, isDigit ch = true

/-- A host of the shape `user@host:app`: not empty, no `/` and no newline. -/
def IsHost (h : Str) : Prop := h ≠ [] ∧ ∀ ch ∈ h, ch ≠ '/' ∧ ch ≠ '\n'

/-- An application name: not empty, no `:`, no `/`, no white space. -/
def IsAppName (a : Str) : Prop :=
  a ≠ [] ∧ ∀ ch ∈ a, ch ≠ ':' ∧ ch ≠ '/' ∧ ch.isWhitespace = false

/-- An application name as `create` receives it: not empty, no `:`, no `/`,
no newline, carriage return or space. -/
def IsCreateName (a : Str) : Prop :=
  a ≠ [] ∧ ∀ ch ∈ a, ch ≠ ':' ∧ ch ≠ '/' ∧ ch ≠ '\n' ∧ ch ≠ '\r' ∧ ch ≠ ' '

/-- The reading "its trailing slash removed and otherwise unchanged": a final
`/`, if there is one, is dropped. -/
def dropTrailingSlash (s : Str) : Str :=
  if s.getLast? = some '/' then s.dropLast else s

/-- The arguments left after the optional `-a APP` prefix. -/
def stripAppFlag : List Str → List Str
  | a0 :: a1 :: rest => if a0 = "-a".toList then rest else a0 :: a1 :: rest
  | args => args

/-- The first command of a registry, in order, that has the given name and is runnable. -/
def firstRunnable (cmds : List Command) (name : Str) : Option Command :=
  cmds.find? (fun c => decide (c.Name = name) && c.Runnable)

/-! ## Concrete situations -/

/-- A world given by its environment variables, its git remotes and its
configuration: `git config remote.<name>.url` prints the URL of a listed remote
followed by a newline, and exits with status 1 for every other key. -/
def World.ofLists (env : List (Str × Str)) (remotes : List (Str × Str))
    (cfg : Option Config) : World :=
  { getenv := fun name => (env.lookup name).getD [],
    gitConfig := fun key =>
      match remotes.find? (fun r => decide ("remote.".toList ++ r.1 ++ ".url".toList = key)) with
      | some r => .ok (r.2 ++ ['\n'])
      | none => .error (.exitError 1),
    getwd := "/home/user/demoapp".toList,
    configFile := cfg }

/-- The configuration of the scenario of the specification: one server. -/
def exampleConfig : Config :=
  ⟨[⟨"git.example.com".toList, "https://api.example.com".toList, [], []⟩]⟩

/-- The scenario of the specification: one server, the remote `flynn` at
`git@git.example.com:demoapp`, no environment override. -/
def wScenario : World :=
  World.ofLists [] [("flynn".toList, "git@git.example.com:demoapp".toList)] (some exampleConfig)

/-- A repository without any git remote, no environment override. -/
def wNoRemote : World := World.ofLists [] [] (some exampleConfig)

/-- A repository with a second remote `staging` for the application
`demoapp-staging`. -/
def wStaging : World :=
  World.ofLists []
    [("flynn".toList, "git@git.example.com:demoapp".toList),
     ("staging".toList, "git@git.example.com:demoapp-staging".toList)] (some exampleConfig)

/-- The scenario with `FLYNN_API_URL` set to a URL that ends in two slashes. -/
def wApiEnv : World :=
  World.ofLists [("FLYNN_API_URL".toList, "https://override.example.com//".toList)]
    [("flynn".toList, "git@git.example.com:demoapp".toList)] (some exampleConfig)

/-- A repository without any git remote, with `FLYNN_APP` set to `envapp`. -/
def wAppEnv : World :=
  World.ofLists [("FLYNN_APP".toList, "envapp".toList)] [] (some exampleConfig)

/-- A configuration of three servers: the first and the last have an empty git
host, the second the git host `git.example.com`. -/
def lastMatchConfig : Config :=
  ⟨[⟨[], "https://first.example.com".toList, [], []⟩,
    ⟨"git.example.com".toList, "https://api.example.com".toList, [], []⟩,
    ⟨[], "https://last.example.com".toList, [], []⟩]⟩

/-- A repository with the remote `flynn` only and the three servers of
`lastMatchConfig`: git knows no remote with an empty name and none named
`git.example.com`, so that the accessor returns the empty URL for each server;
the two servers with an empty git host pass the match test of the scan. -/
def wLastMatch : World :=
  World.ofLists [] [("flynn".toList, "git@git.example.com:demoapp".toList)]
    (some lastMatchConfig)

/-! ## Theorems -/

theorem tryDown_none {β : Type} (f : Nat → Option β) (lo : Nat) :
    ∀ hi : Nat, (∀ n, lo ≤ n → n ≤ hi → f n = none) → tryDown f lo hi = none := by
  intro hi
  induction hi with
  | zero =>
    intro h
    unfold tryDown
    split
    · rename_i h0
      exact h 0 (by omega) (by omega)
    · rfl
  | succ n ih =>
    intro h
    unfold tryDown
    split
    · rename_i hle
      rw [h (n + 1) hle (by omega)]
      exact ih (fun m h1 h2 => h m h1 (by omega))
    · rfl

theorem tryDown_some {β : Type} (f : Nat → Option β) (lo : Nat) (x : β) :
    ∀ hi : Nat, tryDown f lo hi = some x → ∃ n, lo ≤ n ∧ n ≤ hi ∧ f n = some x := by
  intro hi
  induction hi with
  | zero =>
    intro h
    unfold tryDown at h
    split at h
    · rename_i h0
      exact ⟨0, by omega, by omega, h⟩
    · cases h
  | succ n ih =>
    intro h
    unfold tryDown at h
    split at h
    · rename_i hle
      cases hf : f (n + 1) with
      | some y =>
        rw [hf] at h
        exact ⟨n + 1, hle, by omega, by rw [hf]; exact h⟩
      | none =>
        rw [hf] at h
        obtain ⟨m, h1, h2, h3⟩ := ih h
        exact ⟨m, h1, by omega, h3⟩
    · cases h

theorem tryDown_at {β : Type} (f : Nat → Option β) (lo m : Nat) (x : β)
    (hlo : lo ≤ m) (hm : f m = some x) :
    ∀ hi : Nat, m ≤ hi → (∀ n, m < n → n ≤ hi → f n = none) → tryDown f lo hi = some x := by
  intro hi
  induction hi with
  | zero =>
    intro h1 _
    have : m = 0 := by omega
    subst this
    unfold tryDown
    simp [Nat.le_zero.mp hlo, hm]
  | succ n ih =>
    intro h1 h2
    unfold tryDown
    by_cases hmn : m = n + 1
    · subst hmn
      simp [hlo, hm]
    · have hlt : m ≤ n := by omega
      have hle : lo ≤ n + 1 := by omega
      rw [if_pos hle, h2 (n + 1) (by omega) (by omega)]
      exact ih hlt (fun k hk1 hk2 => h2 k hk1 (by omega))

theorem Re.run_some {β : Type} (r : Re) :
    ∀ (s : Str) (c : Option Str) (k : Str → Option Str → Option β) (x : β),
      r.run s c k = some x → ∃ s1 c1, s1 <:+ s ∧ k s1 c1 = some x := by
  induction r with
  | lit t =>
    intro s c k x h
    simp only [Re.run] at h
    split at h
    · exact ⟨_, _, List.drop_suffix _ _, h⟩
    · cases h
  | cls p lo hi =>
    intro s c k x h
    simp only [Re.run] at h
    obtain ⟨n, _, _, hn⟩ := tryDown_some _ _ _ _ h
    exact ⟨_, _, List.drop_suffix _ _, hn⟩
  | opt r ih =>
    intro s c k x h
    simp only [Re.run] at h
    cases hr : r.run s c k with
    | some y =>
      rw [hr] at h
      exact ih s c k x (by rw [hr]; exact h)
    | none =>
      rw [hr] at h
      exact ⟨s, c, List.suffix_refl _, h⟩
  | seq a b iha ihb =>
    intro s c k x h
    simp only [Re.run] at h
    obtain ⟨s1, c1, hs1, h1⟩ := iha s c _ x h
    obtain ⟨s2, c2, hs2, h2⟩ := ihb s1 c1 k x h1
    exact ⟨s2, c2, hs2.trans hs1, h2⟩
  | alt a b iha ihb =>
    intro s c k x h
    simp only [Re.run] at h
    cases hr : a.run s c k with
    | some y =>
      rw [hr] at h
      exact iha s c k x (by rw [hr]; exact h)
    | none =>
      rw [hr] at h
      exact ihb s c k x h
  | cap r ih =>
    intro s c k x h
    simp only [Re.run] at h
    obtain ⟨s1, c1, hs1, h1⟩ := ih s c _ x h
    exact ⟨s1, _, hs1, h1⟩

theorem Re.run_none_of {β : Type} (r : Re) (s : Str) (c : Option Str)
    (k : Str → Option Str → Option β)
    (h : ∀ s1 c1, s1 <:+ s → k s1 c1 = none) : r.run s c k = none := by
  cases hr : r.run s c k with
  | none => rfl
  | some x =>
    obtain ⟨s1, c1, hs1, h1⟩ := Re.run_some r s c k x hr
    rw [h s1 c1 hs1] at h1
    cases h1

theorem run_lit_none {β : Type} (ch : Char) (s : Str) (c : Option Str)
    (k : Str → Option Str → Option β) (h : ch ∉ s) : (Re.lit [ch]).run s c k = none := by
  simp only [Re.run]
  split
  · rename_i hp
    rw [List.isPrefixOf_iff_prefix] at hp
    exact absurd (hp.subset (List.mem_singleton_self ch)) h
  · rfl

theorem run_lit_append {β : Type} (t s : Str) (c : Option Str)
    (k : Str → Option Str → Option β) : (Re.lit t).run (t ++ s) c k = k s c := by
  simp only [Re.run]
  rw [if_pos (List.isPrefixOf_iff_prefix.mpr (List.prefix_append t s))]
  simp

theorem lead_append (p : Char → Bool) (u s : Str) (hu : ∀ ch ∈ u, p ch = true)
    (hs : ∀ ch, s.head? = some ch → p ch = false) : lead p (u ++ s) = u.length := by
  unfold lead
  rw [List.takeWhile_append_of_pos hu]
  cases s with
  | nil => simp
  | cons a t =>
    have := hs a rfl
    simp [List.takeWhile, this]

theorem lead_le (p : Char → Bool) (s : Str) : lead p s ≤ s.length := by
  unfold lead
  exact (List.takeWhile_sublist p).length_le

theorem lead_all (p : Char → Bool) (s : Str) (hs : ∀ ch ∈ s, p ch = true) :
    lead p s = s.length := by
  have := lead_append p s [] hs (by simp)
  simpa using this

/-- A greedy repetition takes the whole run `u` when the continuation accepts what follows. -/
theorem run_cls_greedy {β : Type} (p : Char → Bool) (lo : Nat) (hi : Option Nat) (u s : Str)
    (c : Option Str) (k : Str → Option Str → Option β) (x : β)
    (hu : ∀ ch ∈ u, p ch = true) (hs : ∀ ch, s.head? = some ch → p ch = false)
    (hlo : lo ≤ u.length) (hhi : ∀ m, hi = some m → u.length ≤ m)
    (hk : k s c = some x) : (Re.cls p lo hi).run (u ++ s) c k = some x := by
  simp only [Re.run]
  have hmax : maxCount p hi (u ++ s) = u.length := by
    unfold maxCount
    rw [lead_append p u s hu hs]
    cases hi with
    | none => rfl
    | some m => simp [Nat.min_eq_right (hhi m rfl)]
  rw [hmax]
  apply tryDown_at _ lo u.length x hlo _ u.length (Nat.le_refl _)
  · intro n h1 h2
    omega
  · simpa using hk

/-- A single `.`-like class of exactly one character. -/
theorem run_cls_one {β : Type} (p : Char → Bool) (ch : Char) (s : Str)
    (c : Option Str) (k : Str → Option Str → Option β) (x : β)
    (hp : p ch = true) (hk : k s c = some x) :
    (Re.cls p 1 (some 1)).run (ch :: s) c k = some x := by
  simp only [Re.run]
  have hmax : maxCount p (some 1) (ch :: s) = 1 := by
    unfold maxCount lead
    simp [List.takeWhile, hp]
  rw [hmax]
  apply tryDown_at _ 1 1 x (Nat.le_refl _) _ 1 (Nat.le_refl _)
  · intro n h1 h2
    omega
  · simpa using hk

/-- A greedy unbounded repetition backtracks to the split `u ++ v` when every
longer split is refused. -/
theorem run_cls_backtrack {β : Type} (p : Char → Bool) (lo : Nat) (u v : Str)
    (c : Option Str) (k : Str → Option Str → Option β) (x : β)
    (hall : ∀ ch ∈ u ++ v, p ch = true) (hlo : lo ≤ u.length)
    (hfail : ∀ j, u.length < j → j ≤ (u ++ v).length → k ((u ++ v).drop j) c = none)
    (hk : k v c = some x) : (Re.cls p lo none).run (u ++ v) c k = some x := by
  simp only [Re.run]
  have hmax : maxCount p none (u ++ v) = (u ++ v).length := lead_all p _ hall
  rw [hmax]
  apply tryDown_at _ lo u.length x hlo _ (u ++ v).length (by simp)
  · intro n h1 h2
    exact hfail n h1 h2
  · simpa using hk

theorem run_cap_all {β : Type} (app : Str) (c : Option Str)
    (k : Str → Option Str → Option β) (x : β)
    (happ : app ≠ []) (hdot : ∀ ch ∈ app, isDot ch = true)
    (hk : k [] (some app) = some x) :
    (Re.cap (Re.cls isDot 1 none)).run app c k = some x := by
  simp only [Re.run]
  have hmax : maxCount isDot none app = app.length := lead_all isDot _ hdot
  rw [hmax]
  have h1 : 1 ≤ app.length := by
    cases app with
    | nil => exact absurd rfl happ
    | cons a t => simp
  apply tryDown_at _ 1 app.length x h1 _ app.length (Nat.le_refl _)
  · intro n h1 h2
    omega
  · simpa using hk

theorem run_seq {β : Type} (a b : Re) (s : Str) (c : Option Str)
    (k : Str → Option Str → Option β) :
    (Re.seq a b).run s c k = a.run s c (fun s1 c1 => b.run s1 c1 k) := rfl

theorem run_opt_of_some {β : Type} (r : Re) (s : Str) (c : Option Str)
    (k : Str → Option Str → Option β) (x : β) (h : r.run s c k = some x) :
    (Re.opt r).run s c k = some x := by
  simp only [Re.run, h]

theorem run_opt_of_none {β : Type} (r : Re) (s : Str) (c : Option Str)
    (k : Str → Option Str → Option β) (h : r.run s c k = none) :
    (Re.opt r).run s c k = k s c := by
  simp only [Re.run, h]

theorem run_alt_of_some {β : Type} (a b : Re) (s : Str) (c : Option Str)
    (k : Str → Option Str → Option β) (x : β) (h : a.run s c k = some x) :
    (Re.alt a b).run s c k = some x := by
  simp only [Re.run, h]

theorem run_alt_of_none {β : Type} (a b : Re) (s : Str) (c : Option Str)
    (k : Str → Option Str → Option β) (h : a.run s c k = none) :
    (Re.alt a b).run s c k = b.run s c k := by
  simp only [Re.run, h]

theorem run_lit_cons {β : Type} (ch : Char) (s : Str) (c : Option Str)
    (k : Str → Option Str → Option β) : (Re.lit [ch]).run (ch :: s) c k = k s c :=
  run_lit_append [ch] s c k

theorem run_lit_head_ne {β : Type} (a : Char) (t s : Str) (c : Option Str)
    (k : Str → Option Str → Option β) (h : s.head? ≠ some a) :
    (Re.lit (a :: t)).run s c k = none := by
  simp only [Re.run]
  have : (a :: t).isPrefixOf s = false := by
    cases s with
    | nil => rfl
    | cons b u =>
      have hne : a ≠ b := by
        intro hab
        apply h
        simp [hab]
      simp [List.isPrefixOf, hne]
  rw [this]
  simp

theorem rePort_run_some {β : Type} (p s : Str) (c : Option Str)
    (k : Str → Option Str → Option β) (x : β) (hp : IsPort p)
    (hs : ∀ ch, s.head? = some ch → isDigit ch = false) (hk : k s c = some x) :
    rePort.run (':' :: (p ++ s)) c k = some x := by
  unfold rePort
  apply run_opt_of_some
  rw [run_seq]
  show (Re.lit [':']).run (':' :: (p ++ s)) c _ = some x
  rw [run_lit_cons]
  have hlen : 1 ≤ p.length := by
    have := hp.1
    cases p with
    | nil => exact absurd rfl this
    | cons a t => simp
  exact run_cls_greedy isDigit 1 none p s c k x hp.2 hs hlen (by intro m hm; cases hm) hk

theorem rePort_run_skip {β : Type} (s : Str) (c : Option Str)
    (k : Str → Option Str → Option β) (hs : s.head? ≠ some ':') :
    rePort.run s c k = k s c := by
  unfold rePort
  apply run_opt_of_none
  rw [run_seq]
  exact run_lit_head_ne ':' [] s c _ hs

theorem rePort_run {β : Type} (port : Option Str) (s : Str) (c : Option Str)
    (k : Str → Option Str → Option β) (x : β) (hp : ∀ p, port = some p → IsPort p)
    (hs : ∀ ch, s.head? = some ch → isDigit ch = false ∧ ch ≠ ':') (hk : k s c = some x) :
    rePort.run (portSuffix port ++ s) c k = some x := by
  cases port with
  | none =>
    simp only [portSuffix, List.nil_append]
    rw [rePort_run_skip s c k (fun h => (hs ':' h).2 rfl)]
    exact hk
  | some p =>
    simp only [portSuffix, List.cons_append]
    exact rePort_run_some p s c k x (hp p rfl) (fun ch h => (hs ch h).1) hk

theorem isDot_of_ne {ch : Char} (h : ch ≠ '\n') : isDot ch = true := by
  simp [isDot, h]

/-- After the host part, the capturing group takes the whole application name. -/
theorem reApp_run {β : Type} (app : Str) (c : Option Str)
    (k : Str → Option Str → Option β) (x : β)
    (happ : app ≠ []) (hdot : ∀ ch ∈ app, ch ≠ '\n')
    (hk : k [] (some app) = some x) : reApp.run app c k = some x :=
  run_cap_all app c k x happ (fun ch h => isDot_of_ne (hdot ch h)) hk

theorem slash_head (app : Str) :
    ∀ ch, ('/' :: app).head? = some ch → isDigit ch = false ∧ ch ≠ ':' := by
  intro ch h
  simp only [List.head?_cons, Option.some.injEq] at h
  subst h
  decide

theorem reLocalhost_run {β : Type} (port : Option Str) (app : Str) (c : Option Str)
    (k : Str → Option Str → Option β) (x : β) (hp : ∀ p, port = some p → IsPort p)
    (hk : k app c = some x) :
    reLocalhost.run ("localhost".toList ++ (portSuffix port ++ '/' :: app)) c k = some x := by
  unfold reLocalhost
  rw [run_seq, run_lit_append, run_seq]
  apply rePort_run port ('/' :: app) c _ x hp (slash_head app)
  show (Re.lit ['/']).run ('/' :: app) c k = some x
  rw [run_lit_cons]
  exact hk

theorem reHost_localhost {β : Type} (port : Option Str) (app : Str) (c : Option Str)
    (k : Str → Option Str → Option β) (x : β) (hp : ∀ p, port = some p → IsPort p)
    (hk : k app c = some x) :
    reHost.run ("localhost".toList ++ (portSuffix port ++ '/' :: app)) c k = some x := by
  unfold reHost
  exact run_alt_of_some _ _ _ _ _ _ (reLocalhost_run port app c k x hp hk)

theorem reLocalhost_digit_none {β : Type} (a : Char) (s : Str) (c : Option Str)
    (k : Str → Option Str → Option β) (ha : isDigit a = true) :
    reLocalhost.run (a :: s) c k = none := by
  unfold reLocalhost
  rw [run_seq]
  apply run_lit_head_ne 'l' "ocalhost".toList
  intro h
  simp only [List.head?_cons, Option.some.injEq] at h
  subst h
  revert ha
  decide

theorem reDotted_run {β : Type} (d1 d2 d3 d4 : Str) (port : Option Str) (app : Str)
    (c : Option Str) (k : Str → Option Str → Option β) (x : β)
    (h1 : IsOctet d1) (h2 : IsOctet d2) (h3 : IsOctet d3) (h4 : IsOctet d4)
    (hp : ∀ p, port = some p → IsPort p) (hk : k app c = some x) :
    reDotted.run (d1 ++ '.' :: (d2 ++ '.' :: (d3 ++ '.' :: (d4 ++
      (portSuffix port ++ '/' :: app))))) c k = some x := by
  have hdotc : ∀ (t : Str) (ch : Char), ('.' :: t).head? = some ch → isDigit ch = false := by
    intro t ch h
    simp only [List.head?_cons, Option.some.injEq] at h
    subst h
    decide
  have hbound : ∀ d : Str, d.length ≤ 3 → ∀ m, some 3 = some m → d.length ≤ m := by
    intro d hd m hm
    cases hm
    exact hd
  unfold reDotted
  rw [run_seq]
  apply run_cls_greedy isDigit 1 (some 3) d1 _ c _ x h1.2.2 (hdotc _) h1.1 (hbound d1 h1.2.1)
  rw [run_seq]
  apply run_cls_one isDot '.' _ c _ x (by decide)
  rw [run_seq]
  apply run_cls_greedy isDigit 1 (some 3) d2 _ c _ x h2.2.2 (hdotc _) h2.1 (hbound d2 h2.2.1)
  rw [run_seq]
  apply run_cls_one isDot '.' _ c _ x (by decide)
  rw [run_seq]
  apply run_cls_greedy isDigit 1 (some 3) d3 _ c _ x h3.2.2 (hdotc _) h3.1 (hbound d3 h3.2.1)
  rw [run_seq]
  apply run_cls_one isDot '.' _ c _ x (by decide)
  rw [run_seq]
  have hhead : ∀ ch, (portSuffix port ++ '/' :: app).head? = some ch → isDigit ch = false := by
    intro ch h
    cases port with
    | none =>
      simp only [portSuffix, List.nil_append, List.head?_cons, Option.some.injEq] at h
      subst h
      decide
    | some p =>
      simp only [portSuffix, List.cons_append, List.head?_cons, Option.some.injEq] at h
      subst h
      decide
  apply run_cls_greedy isDigit 1 (some 3) d4 _ c _ x h4.2.2 hhead h4.1 (hbound d4 h4.2.1)
  rw [run_seq]
  apply rePort_run port ('/' :: app) c _ x hp (slash_head app)
  show (Re.lit ['/']).run ('/' :: app) c k = some x
  rw [run_lit_cons]
  exact hk

theorem reHost_dotted {β : Type} (d1 d2 d3 d4 : Str) (port : Option Str) (app : Str)
    (c : Option Str) (k : Str → Option Str → Option β) (x : β)
    (h1 : IsOctet d1) (h2 : IsOctet d2) (h3 : IsOctet d3) (h4 : IsOctet d4)
    (hp : ∀ p, port = some p → IsPort p) (hk : k app c = some x) :
    reHost.run (d1 ++ '.' :: (d2 ++ '.' :: (d3 ++ '.' :: (d4 ++
      (portSuffix port ++ '/' :: app))))) c k = some x := by
  have hd := reDotted_run d1 d2 d3 d4 port app c k x h1 h2 h3 h4 hp hk
  obtain ⟨a, t, rfl⟩ : ∃ a t, d1 = a :: t := by
    cases d1 with
    | nil => exact absurd h1.1 (by simp)
    | cons a t => exact ⟨a, t, rfl⟩
  have hl := reLocalhost_digit_none a (t ++ '.' :: (d2 ++ '.' :: (d3 ++ '.' :: (d4 ++
      (portSuffix port ++ '/' :: app))))) c k (h1.2.2 a (by simp))
  unfold reHost
  rw [run_alt_of_none _ _ _ _ _ (by simpa only [List.cons_append] using hl)]
  exact run_alt_of_some _ _ _ _ _ _ hd

/-- A pattern that ends in the literal `ch` cannot match a text without `ch`. -/
theorem run_seq_lit_none {β : Type} (a : Re) (ch : Char) (s : Str) (c : Option Str)
    (k : Str → Option Str → Option β) (h : ch ∉ s) :
    (Re.seq a (Re.lit [ch])).run s c k = none := by
  rw [run_seq]
  apply Re.run_none_of
  intro s1 c1 hs1
  exact run_lit_none ch s1 c1 k (fun hm => h (hs1.subset hm))

theorem run_seq_none {β : Type} (a b : Re) (s : Str) (c : Option Str)
    (k : Str → Option Str → Option β)
    (h : ∀ s1 c1, s1 <:+ s → b.run s1 c1 k = none) :
    (Re.seq a b).run s c k = none := by
  rw [run_seq]
  exact Re.run_none_of a s c _ h

theorem reLocalhost_none {β : Type} (s : Str) (c : Option Str)
    (k : Str → Option Str → Option β) (h : '/' ∉ s) : reLocalhost.run s c k = none := by
  unfold reLocalhost
  apply run_seq_none
  intro s1 c1 hs1
  exact run_seq_lit_none rePort '/' s1 c1 k (fun hm => h (hs1.subset hm))

theorem reDotted_none {β : Type} (s : Str) (c : Option Str)
    (k : Str → Option Str → Option β) (h : '/' ∉ s) : reDotted.run s c k = none := by
  unfold reDotted
  apply run_seq_none
  intro s1 c1 hs1
  apply run_seq_none
  intro s2 c2 hs2
  apply run_seq_none
  intro s3 c3 hs3
  apply run_seq_none
  intro s4 c4 hs4
  apply run_seq_none
  intro s5 c5 hs5
  apply run_seq_none
  intro s6 c6 hs6
  apply run_seq_none
  intro s7 c7 hs7
  exact run_seq_lit_none rePort '/' s7 c7 k (fun hm =>
    h ((((((hs7.trans hs6).trans hs5).trans hs4).trans hs3).trans hs2).trans hs1 |>.subset hm))

theorem reScp_run {β : Type} (host app : Str) (c : Option Str)
    (k : Str → Option Str → Option β) (x : β)
    (hhost : host ≠ []) (hhn : ∀ ch ∈ host, ch ≠ '\n')
    (happ : ∀ ch ∈ app, ch ≠ ':' ∧ ch ≠ '\n') (hk : k app c = some x) :
    reScp.run (host ++ ':' :: app) c k = some x := by
  unfold reScp
  rw [run_seq]
  apply run_cls_backtrack isDot 1 host (':' :: app) c _ x
  · intro ch hch
    rw [List.mem_append, List.mem_cons] at hch
    rcases hch with h | h | h
    · exact isDot_of_ne (hhn ch h)
    · subst h
      decide
    · exact isDot_of_ne (happ ch h).2
  · cases host with
    | nil => exact absurd rfl hhost
    | cons a t => simp
  · intro j h1 h2
    apply run_lit_none
    intro hm
    have hj : (host ++ ':' :: app).drop j = app.drop (j - host.length - 1) := by
      rw [List.drop_append_eq_append_drop]
      have h3 : host.drop j = [] := List.drop_eq_nil_of_le (by omega)
      rw [h3, List.nil_append]
      obtain ⟨m, hm⟩ : ∃ m, j - host.length = m + 1 := ⟨j - host.length - 1, by omega⟩
      rw [hm]
      simp
    rw [hj] at hm
    exact (happ ':' (List.mem_of_mem_drop hm)).1 rfl
  · show (Re.lit [':']).run (':' :: app) c k = some x
    rw [run_lit_cons]
    exact hk

theorem reHost_scp {β : Type} (host app : Str) (c : Option Str)
    (k : Str → Option Str → Option β) (x : β)
    (hhost : IsHost host)
    (happ : ∀ ch ∈ app, ch ≠ ':' ∧ ch ≠ '/' ∧ ch ≠ '\n') (hk : k app c = some x) :
    reHost.run (host ++ ':' :: app) c k = some x := by
  have hslash : '/' ∉ host ++ ':' :: app := by
    intro hm
    rw [List.mem_append, List.mem_cons] at hm
    rcases hm with h | h | h
    · exact (hhost.2 '/' h).1 rfl
    · revert h
      decide
    · exact (happ '/' h).2.1 rfl
  unfold reHost
  rw [run_alt_of_none _ _ _ _ _ (reLocalhost_none _ c k hslash),
    run_alt_of_none _ _ _ _ _ (reDotted_none _ c k hslash)]
  exact reScp_run host app c k x hhost.1 (fun ch h => (hhost.2 ch h).2)
    (fun ch h => ⟨(happ ch h).1, (happ ch h).2.2⟩) hk

/-- The part of the pattern before the host: the optional scheme, the user and `@`. -/
theorem run_user {β : Type} (ssh : Bool) (user tail : Str) (r : Re) (c : Option Str)
    (k : Str → Option Str → Option β) (x : β) (hu : IsUser user)
    (hk : r.run tail c k = some x) :
    (Re.seq (Re.opt (Re.lit "ssh://".toList)) (Re.seq (Re.cls isWord 1 none)
      (Re.seq (Re.lit "@".toList) r))).run (sshPrefix ssh ++ (user ++ '@' :: tail)) c k
      = some x := by
  have hlen : 1 ≤ user.length := by
    have := hu.1
    cases user with
    | nil => exact absurd rfl this
    | cons a t => simp
  have hword : (Re.seq (Re.cls isWord 1 none) (Re.seq (Re.lit "@".toList) r)).run
      (user ++ '@' :: tail) c k = some x := by
    rw [run_seq]
    apply run_cls_greedy isWord 1 none user ('@' :: tail) c _ x hu.2 _ hlen
      (by intro m hm; cases hm)
    · rw [run_seq]
      show (Re.lit ['@']).run ('@' :: tail) c _ = some x
      rw [run_lit_cons]
      exact hk
    · intro ch h
      simp only [List.head?_cons, Option.some.injEq] at h
      subst h
      decide
  rw [run_seq]
  cases ssh with
  | true =>
    apply run_opt_of_some
    simp only [sshPrefix, if_true]
    rw [run_lit_append]
    exact hword
  | false =>
    simp only [sshPrefix, Bool.false_eq_true, if_false, List.nil_append]
    rw [run_opt_of_none]
    · exact hword
    · simp only [Re.run]
      have hnp : ("ssh://".toList).isPrefixOf (user ++ '@' :: tail) = false := by
        have hc : ∀ ch ∈ user, ch ≠ ':' ∧ ch ≠ '@' := by
          intro ch h
          have := hu.2 ch h
          constructor <;> (intro h2; subst h2; revert this; decide)
        rcases user with _ | ⟨a, _ | ⟨b, _ | ⟨d, _ | ⟨e, u⟩⟩⟩⟩
        · exact absurd rfl hu.1
        · simp [List.isPrefixOf]
        · simp [List.isPrefixOf]
        · simp [List.isPrefixOf]
        · have hne := (hc e (by simp)).1
          show List.isPrefixOf ('s' :: 's' :: 'h' :: ':' :: "//".toList)
            (a :: b :: d :: e :: (u ++ '@' :: tail)) = false
          simp only [List.isPrefixOf]
          have h4 : (':' == e) = false := beq_eq_false_iff_ne.mpr (fun h => hne h.symm)
          rw [h4]
          simp
      rw [hnp]
      simp

theorem dropWhile_head_false (p : Char → Bool) (s : Str)
    (h : ∀ ch, s.head? = some ch → p ch = false) : s.dropWhile p = s := by
  cases s with
  | nil => rfl
  | cons a t =>
    have := h a rfl
    simp [List.dropWhile, this]

/-- Trimming removes a tail made of cutset characters and nothing else when
the text starts and ends outside the cutset. -/
theorem trim_append (cut s t : Str) (hne : s ≠ [])
    (hh : ∀ ch, s.head? = some ch → cut.contains ch = false)
    (hl : ∀ ch, s.getLast? = some ch → cut.contains ch = false)
    (ht : ∀ ch ∈ t, cut.contains ch = true) : trim cut (s ++ t) = s := by
  unfold trim trimLeft trimRight
  have h1 : (s ++ t).dropWhile (fun c => cut.contains c) = s ++ t := by
    apply dropWhile_head_false
    intro ch h
    rw [List.head?_append_of_ne_nil _ hne] at h
    exact hh ch h
  rw [h1, List.reverse_append]
  rw [List.dropWhile_append_of_pos (by
    intro a ha
    exact ht a (List.mem_reverse.mp ha))]
  rw [dropWhile_head_false]
  · exact List.reverse_reverse s
  · intro ch h
    rw [List.head?_reverse] at h
    exact hl ch h

theorem trim_self (cut s : Str) (hne : s ≠ [])
    (hh : ∀ ch, s.head? = some ch → cut.contains ch = false)
    (hl : ∀ ch, s.getLast? = some ch → cut.contains ch = false) : trim cut s = s := by
  have := trim_append cut s [] hne hh hl (by simp)
  simpa using this

theorem getLast?_of_suffix (app s : Str) (h : app <:+ s) (hne : app ≠ []) :
    s.getLast? = app.getLast? := by
  obtain ⟨pre, rfl⟩ := h
  exact List.getLast?_append_of_ne_nil pre hne

theorem findStringSubmatch_of_matchAt (re : Re) (s : Str) (m : Str × Str)
    (h : re.matchAt s = some m) : re.findStringSubmatch s = some m := by
  cases s with
  | nil => simpa [Re.findStringSubmatch] using h
  | cons a t => simp [Re.findStringSubmatch, h]

/-- The pattern matches a text `[ssh://]user@tail` from its first character and
captures `app` as soon as the host group, run on `tail`, leaves exactly `app`. -/
theorem matchAt_user (ssh : Bool) (user tail app : Str) (hu : IsUser user)
    (happ : app ≠ []) (hnl : ∀ ch ∈ app, ch ≠ '\n')
    (htail : ∀ (c : Option Str) (k : Str → Option Str → Option (Str × Str)) (x : Str × Str),
      k app c = some x → reHost.run tail c k = some x) :
    appFromRemoteUrlRegex.matchAt (sshPrefix ssh ++ (user ++ '@' :: tail))
      = some (sshPrefix ssh ++ (user ++ '@' :: tail), app) := by
  unfold Re.matchAt appFromRemoteUrlRegex
  apply run_user ssh user tail _ none _ _ hu
  rw [run_seq]
  apply htail
  apply reApp_run app none _ _ happ hnl
  simp

/-- The extractor on a text of a supported shape, possibly followed by
characters that trimming removes. -/
theorem extract_ok (ssh : Bool) (user tail app ws : Str) (hu : IsUser user)
    (happ : app ≠ []) (hnl : ∀ ch ∈ app, ch ≠ '\n' ∧ ch ≠ '\r' ∧ ch ≠ ' ')
    (hsuf : app <:+ tail)
    (htail : ∀ (c : Option Str) (k : Str → Option Str → Option (Str × Str)) (x : Str × Str),
      k app c = some x → reHost.run tail c k = some x)
    (hws : ∀ ch ∈ ws, ch = '\n' ∨ ch = '\r' ∨ ch = ' ') :
    appFromGitRemoteUrl (sshPrefix ssh ++ (user ++ '@' :: tail) ++ ws) = (app, none) := by
  have hcut : ∀ ch : Char, ("\r\n ".toList).contains ch = true ↔
      (ch = '\n' ∨ ch = '\r' ∨ ch = ' ') := by
    intro ch
    show (['\r', '\n', ' '] : List Char).contains ch = true ↔ _
    simp only [List.contains_eq_any_beq, List.any_cons, List.any_nil, Bool.or_false,
      Bool.or_eq_true, beq_iff_eq]
    constructor
    · rintro (h | h | h)
      · exact Or.inr (Or.inl h)
      · exact Or.inl h
      · exact Or.inr (Or.inr h)
    · rintro (h | h | h)
      · exact Or.inr (Or.inl h)
      · exact Or.inl h
      · exact Or.inr (Or.inr h)
  have hnot : ∀ ch : Char, ch ≠ '\n' → ch ≠ '\r' → ch ≠ ' ' →
      ("\r\n ".toList).contains ch = false := by
    intro ch h1 h2 h3
    cases hc : ("\r\n ".toList).contains ch with
    | false => rfl
    | true =>
      rcases (hcut ch).mp hc with h | h | h
      · exact absurd h h1
      · exact absurd h h2
      · exact absurd h h3
  have huser : ∀ ch ∈ user, ch ≠ '\n' ∧ ch ≠ '\r' ∧ ch ≠ ' ' := by
    intro ch h
    have := hu.2 ch h
    refine ⟨?_, ?_, ?_⟩ <;> (intro h2; subst h2; revert this; decide)
  have htrim : trim "\r\n ".toList (sshPrefix ssh ++ (user ++ '@' :: tail) ++ ws)
      = sshPrefix ssh ++ (user ++ '@' :: tail) := by
    apply trim_append
    · cases ssh <;> cases user <;> simp [sshPrefix]
    · intro ch h
      cases ssh with
      | true =>
        simp only [sshPrefix, if_true] at h
        have : ch = 's' := by
          simpa [List.head?] using h.symm
        subst this
        decide
      | false =>
        simp only [sshPrefix, Bool.false_eq_true, if_false, List.nil_append] at h
        cases user with
        | nil => exact absurd rfl hu.1
        | cons a t =>
          simp only [List.cons_append, List.head?_cons, Option.some.injEq] at h
          subst h
          have := huser a (by simp)
          exact hnot a this.1 this.2.1 this.2.2
    · intro ch h
      have hs : app <:+ sshPrefix ssh ++ (user ++ '@' :: tail) :=
        ((hsuf.trans (List.suffix_cons '@' tail)).trans (List.suffix_append user _)).trans
          (List.suffix_append _ _)
      rw [getLast?_of_suffix app _ hs happ] at h
      have hm : ch ∈ app := List.mem_of_getLast?_eq_some h
      have := hnl ch hm
      exact hnot ch this.1 this.2.1 this.2.2
    · intro ch h
      exact (hcut ch).mpr (hws ch h)
  unfold appFromGitRemoteUrl
  simp only [htrim]
  rw [findStringSubmatch_of_matchAt _ _ _
    (matchAt_user ssh user tail app hu happ (fun ch h => (hnl ch h).1) htail)]

theorem appName_weak (app : Str) (h : IsAppName app) :
    ∀ ch ∈ app, ch ≠ '\n' ∧ ch ≠ '\r' ∧ ch ≠ ' ' := by
  intro ch hm
  have := (h.2 ch hm).2.2
  refine ⟨?_, ?_, ?_⟩ <;> (intro h2; subst h2; revert this; decide)

theorem localhostUrl_ok (ssh : Bool) (user : Str) (port : Option Str) (app ws : Str)
    (hu : IsUser user) (hp : ∀ p, port = some p → IsPort p) (happ : app ≠ [])
    (hnl : ∀ ch ∈ app, ch ≠ '\n' ∧ ch ≠ '\r' ∧ ch ≠ ' ')
    (hws : ∀ ch ∈ ws, ch = '\n' ∨ ch = '\r' ∨ ch = ' ') :
    appFromGitRemoteUrl (localhostUrl ssh user port app ++ ws) = (app, none) := by
  unfold localhostUrl
  apply extract_ok ssh user _ app ws hu happ hnl
  · exact ((List.suffix_cons '/' app).trans (List.suffix_append _ _)).trans
      (List.suffix_append _ _)
  · intro c k x hk
    exact reHost_localhost port app c k x hp hk
  · exact hws

theorem dottedUrl_ok (ssh : Bool) (user d1 d2 d3 d4 : Str) (port : Option Str) (app ws : Str)
    (hu : IsUser user) (h1 : IsOctet d1) (h2 : IsOctet d2) (h3 : IsOctet d3) (h4 : IsOctet d4)
    (hp : ∀ p, port = some p → IsPort p) (happ : app ≠ [])
    (hnl : ∀ ch ∈ app, ch ≠ '\n' ∧ ch ≠ '\r' ∧ ch ≠ ' ')
    (hws : ∀ ch ∈ ws, ch = '\n' ∨ ch = '\r' ∨ ch = ' ') :
    appFromGitRemoteUrl (dottedUrl ssh user d1 d2 d3 d4 port app ++ ws) = (app, none) := by
  unfold dottedUrl
  apply extract_ok ssh user _ app ws hu happ hnl
  · have s1 : app <:+ portSuffix port ++ '/' :: app :=
      (List.suffix_cons '/' app).trans (List.suffix_append _ _)
    have s2 : app <:+ d4 ++ (portSuffix port ++ '/' :: app) := s1.trans (List.suffix_append _ _)
    have s3 : app <:+ d3 ++ '.' :: (d4 ++ (portSuffix port ++ '/' :: app)) :=
      (s2.trans (List.suffix_cons _ _)).trans (List.suffix_append _ _)
    have s4 : app <:+ d2 ++ '.' :: (d3 ++ '.' :: (d4 ++ (portSuffix port ++ '/' :: app))) :=
      (s3.trans (List.suffix_cons _ _)).trans (List.suffix_append _ _)
    exact (s4.trans (List.suffix_cons _ _)).trans (List.suffix_append _ _)
  · intro c k x hk
    exact reHost_dotted d1 d2 d3 d4 port app c k x h1 h2 h3 h4 hp hk
  · exact hws

theorem scpUrl_ok (ssh : Bool) (user host app ws : Str)
    (hu : IsUser user) (hh : IsHost host) (happ : IsCreateName app)
    (hws : ∀ ch ∈ ws, ch = '\n' ∨ ch = '\r' ∨ ch = ' ') :
    appFromGitRemoteUrl (scpUrl ssh user host app ++ ws) = (app, none) := by
  unfold scpUrl
  apply extract_ok ssh user _ app ws hu happ.1
    (fun ch h => ⟨(happ.2 ch h).2.2.1, (happ.2 ch h).2.2.2.1, (happ.2 ch h).2.2.2.2⟩)
  · exact (List.suffix_cons ':' app).trans (List.suffix_append _ _)
  · intro c k x hk
    exact reHost_scp host app c k x hh
      (fun ch h => ⟨(happ.2 ch h).1, (happ.2 ch h).2.1, (happ.2 ch h).2.2.1⟩) hk
  · exact hws

theorem createName_of_appName (app : Str) (h : IsAppName app) : IsCreateName app :=
  ⟨h.1, fun ch hm =>
    ⟨(h.2 ch hm).1, (h.2 ch hm).2.1, (appName_weak app h ch hm).1,
      (appName_weak app h ch hm).2.1, (appName_weak app h ch hm).2.2⟩⟩

/-- C4: for every supported URL shape the extractor returns, without error,
exactly the application segment: `[ssh://]user@localhost[:port]/app`,
`[ssh://]user@d.d.d.d[:port]/app` and `[ssh://]user@host:app` all yield `app`,
for every user of one or more word characters, every optional numeric port,
every dotted quad of one to three digits each, every non-empty host without
`/` or newline, and every non-empty application name free of `:`, `/` and
white space. -/
theorem appFromGitRemoteUrl_supported_shapes (ssh : Bool) (user : Str) (port : Option Str)
    (d1 d2 d3 d4 host app : Str)
    (hu : IsUser user) (hp : ∀ p, port = some p → IsPort p)
    (h1 : IsOctet d1) (h2 : IsOctet d2) (h3 : IsOctet d3) (h4 : IsOctet d4)
    (hh : IsHost host) (happ : IsAppName app) :
    appFromGitRemoteUrl (localhostUrl ssh user port app) = (app, none) ∧
    appFromGitRemoteUrl (dottedUrl ssh user d1 d2 d3 d4 port app) = (app, none) ∧
    appFromGitRemoteUrl (scpUrl ssh user host app) = (app, none) := by
  have hw := appName_weak app happ
  refine ⟨?_, ?_, ?_⟩
  · have := localhostUrl_ok ssh user port app [] hu hp happ.1 hw (by simp)
    simpa using this
  · have := dottedUrl_ok ssh user d1 d2 d3 d4 port app [] hu h1 h2 h3 h4 hp happ.1 hw (by simp)
    simpa using this
  · have := scpUrl_ok ssh user host app [] hu hh (createName_of_appName app happ) (by simp)
    simpa using this

theorem appFromGitRemoteUrl_supported_shapes_witness :
    (IsUser "git".toList ∧ IsPort "2222".toList ∧ IsOctet "10".toList ∧ IsOctet "0".toList ∧
      IsOctet "5".toList ∧ IsHost "git.example.com".toList ∧ IsAppName "myapp".toList) ∧
    appFromGitRemoteUrl "ssh://git@localhost:2222/myapp".toList = ("myapp".toList, none) ∧
    appFromGitRemoteUrl "ssh://git@10.0.0.5:2222/myapp".toList = ("myapp".toList, none) ∧
    appFromGitRemoteUrl "ssh://git@git.example.com:myapp".toList = ("myapp".toList, none) := by
  have hu : IsUser "git".toList := ⟨by decide, by decide⟩
  have hp : IsPort "2222".toList := ⟨by decide, by decide⟩
  have h10 : IsOctet "10".toList := ⟨by decide, by decide, by decide⟩
  have h0 : IsOctet "0".toList := ⟨by decide, by decide, by decide⟩
  have h5 : IsOctet "5".toList := ⟨by decide, by decide, by decide⟩
  have hh : IsHost "git.example.com".toList := ⟨by decide, by decide⟩
  have ha : IsAppName "myapp".toList := ⟨by decide, by decide⟩
  exact ⟨⟨hu, hp, h10, h0, h5, hh, ha⟩,
    appFromGitRemoteUrl_supported_shapes true "git".toList (some "2222".toList)
      "10".toList "0".toList "0".toList "5".toList "git.example.com".toList "myapp".toList
      hu (fun p h => by cases h; exact hp) h10 h0 h0 h5 hh ha⟩

/-- The example URLs quoted by the specification. -/
theorem appFromGitRemoteUrl_examples :
    appFromGitRemoteUrl "ssh://git@localhost:2222/myapp".toList = ("myapp".toList, none) ∧
    appFromGitRemoteUrl "git@10.0.0.5/otherapp".toList = ("otherapp".toList, none) ∧
    appFromGitRemoteUrl "user@git.example.com:someapp".toList = ("someapp".toList, none) := by
  decide

/-- C10: round trip between `create` and the extractor: with at least one
configured server whose first server has a non-empty git host without `/` or
newline, and an application name that is non-empty and has no `:`, `/`,
newline, carriage return or space, `gitRemoteUrlFromApp` returns a URL from
which `appFromGitRemoteUrl` extracts the name again, without error, also when
the newline that git prints is appended to the URL. -/
theorem create_extract_roundtrip (config : Config) (s0 : server) (rest : List server)
    (name : Str) (hservers : config.Servers = s0 :: rest) (hhost : IsHost s0.GitHost)
    (hname : IsCreateName name) :
    ∃ url, gitRemoteUrlFromApp config name = some (url, none) ∧
      appFromGitRemoteUrl url = (name, none) ∧
      appFromGitRemoteUrl (url ++ ['\n']) = (name, none) := by
  refine ⟨"git@".toList ++ s0.GitHost ++ ":".toList ++ name, ?_, ?_, ?_⟩
  · simp [gitRemoteUrlFromApp, hservers]
  · have := scpUrl_ok false "git".toList s0.GitHost name [] ⟨by decide, by decide⟩ hhost hname
      (by simp)
    simpa [scpUrl, sshPrefix] using this
  · have := scpUrl_ok false "git".toList s0.GitHost name ['\n'] ⟨by decide, by decide⟩ hhost
      hname (by simp)
    simpa [scpUrl, sshPrefix] using this

theorem create_extract_roundtrip_witness :
    ∃ url, gitRemoteUrlFromApp exampleConfig "demoapp".toList = some (url, none) ∧
      appFromGitRemoteUrl url = ("demoapp".toList, none) ∧
      appFromGitRemoteUrl (url ++ ['\n']) = ("demoapp".toList, none) :=
  create_extract_roundtrip exampleConfig
    ⟨"git.example.com".toList, "https://api.example.com".toList, [], []⟩ []
    "demoapp".toList rfl ⟨by decide, by decide⟩ ⟨by decide, by decide⟩

theorem regex_run_none_of_no_at {β : Type} (s : Str) (c : Option Str)
    (k : Str → Option Str → Option β) (h : '@' ∉ s) :
    appFromRemoteUrlRegex.run s c k = none := by
  unfold appFromRemoteUrlRegex
  apply run_seq_none
  intro s1 c1 hs1
  apply run_seq_none
  intro s2 c2 hs2
  rw [run_seq]
  exact run_lit_none '@' s2 c2 _ (fun hm => h ((hs2.trans hs1).subset hm))

theorem findStringSubmatch_none_of_no_at (s : Str) (h : '@' ∉ s) :
    appFromRemoteUrlRegex.findStringSubmatch s = none := by
  induction s with
  | nil =>
    simp only [Re.findStringSubmatch, Re.matchAt]
    exact regex_run_none_of_no_at [] none _ h
  | cons a t ih =>
    have h1 : appFromRemoteUrlRegex.matchAt (a :: t) = none := by
      unfold Re.matchAt
      exact regex_run_none_of_no_at (a :: t) none _ h
    simp only [Re.findStringSubmatch, h1]
    exact ih (fun hm => h (List.mem_cons_of_mem a hm))

theorem mem_of_mem_trim (cut s : Str) (ch : Char) (h : ch ∈ trim cut s) : ch ∈ s := by
  unfold trim trimRight trimLeft at h
  rw [List.mem_reverse] at h
  have h1 := (List.dropWhile_sublist _).subset h
  rw [List.mem_reverse] at h1
  exact (List.dropWhile_sublist _).subset h1

/-- A text without `@` never matches: the extractor returns the empty name and
the error built from the trimmed text. -/
theorem appFromGitRemoteUrl_no_at (url : Str) (h : '@' ∉ url) :
    appFromGitRemoteUrl url = ([], some (.errorf ("could not find app name in ".toList ++
      trim "\r\n ".toList url ++ " git remote".toList) [])) := by
  unfold appFromGitRemoteUrl
  simp only []
  rw [findStringSubmatch_none_of_no_at _ (fun hm => h (mem_of_mem_trim _ _ _ hm))]

/-- The extractor fails exactly when the pattern does not match the trimmed text. -/
theorem appFromGitRemoteUrl_error_iff (url : Str) :
    (appFromGitRemoteUrl url).2 ≠ none ↔
      appFromRemoteUrlRegex.findStringSubmatch (trim "\r\n ".toList url) = none := by
  unfold appFromGitRemoteUrl
  simp only []
  cases h : appFromRemoteUrlRegex.findStringSubmatch (trim "\r\n ".toList url) with
  | none => simp
  | some m => simp

theorem doPrintf_no_percent (s : Str) (h : '%' ∉ s) : doPrintf s 0 = s := by
  induction s with
  | nil => rfl
  | cons a t ih =>
    have ha : a ≠ '%' := fun e => h (by simp [e])
    simp only [doPrintf, if_neg ha]
    rw [ih (fun hm => h (List.mem_cons_of_mem a hm))]

/-- With no `@` and no `%` in the text, the error text is the message with the
trimmed text in it. -/
theorem appFromGitRemoteUrl_error_text (url : Str) (h : '@' ∉ url) (hp : '%' ∉ url) :
    (appFromGitRemoteUrl url).2.bind GoError.text0 = some ("could not find app name in ".toList ++
      trim "\r\n ".toList url ++ " git remote".toList) := by
  rw [appFromGitRemoteUrl_no_at url h]
  simp only [Option.bind, GoError.text0, sprintf0]
  rw [doPrintf_no_percent]
  intro hm
  rw [List.mem_append, List.mem_append] at hm
  rcases hm with (hm | hm) | hm
  · revert hm
    decide
  · exact hp (mem_of_mem_trim _ _ _ hm)
  · revert hm
    decide

theorem findStringSubmatch_some_matchAt (re : Re) (s : Str) (m : Str × Str)
    (h : re.findStringSubmatch s = some m) : ∃ t, t <:+ s ∧ re.matchAt t = some m := by
  induction s with
  | nil =>
    simp only [Re.findStringSubmatch] at h
    exact ⟨[], List.suffix_refl _, h⟩
  | cons a t ih =>
    simp only [Re.findStringSubmatch] at h
    cases hm : re.matchAt (a :: t) with
    | some y =>
      rw [hm] at h
      exact ⟨a :: t, List.suffix_refl _, by rw [hm]; exact h⟩
    | none =>
      rw [hm] at h
      obtain ⟨u, hu, hu2⟩ := ih h
      exact ⟨u, hu.trans (List.suffix_cons a t), hu2⟩

theorem reApp_group_ne_nil (s : Str) (c : Option Str) (whole : Str) (m : Str × Str)
    (h : reApp.run s c (fun rest c1 => some (whole.take (whole.length - rest.length),
      c1.getD [])) = some m) : m.2 ≠ [] := by
  unfold reApp at h
  simp only [Re.run] at h
  obtain ⟨n, h1, h2, h3⟩ := tryDown_some _ _ _ _ h
  have hle : n ≤ s.length := by
    have : maxCount isDot none s ≤ s.length := lead_le isDot s
    omega
  simp only [Option.getD_some, Option.some.injEq] at h3
  rw [← h3]
  simp only [List.length_drop]
  intro h4
  have h5 := congrArg List.length h4
  simp only [List.length_take, List.length_nil] at h5
  omega

/-- Whenever the pattern matches, the captured group is not empty. -/
theorem findStringSubmatch_group_ne_nil (s : Str) (m : Str × Str)
    (h : appFromRemoteUrlRegex.findStringSubmatch s = some m) : m.2 ≠ [] := by
  obtain ⟨t, _, ht⟩ := findStringSubmatch_some_matchAt _ _ _ h
  unfold Re.matchAt appFromRemoteUrlRegex at ht
  rw [run_seq] at ht
  obtain ⟨s1, c1, _, h1⟩ := Re.run_some _ _ _ _ _ ht
  rw [run_seq] at h1
  obtain ⟨s2, c2, _, h2⟩ := Re.run_some _ _ _ _ _ h1
  rw [run_seq] at h2
  obtain ⟨s3, c3, _, h3⟩ := Re.run_some _ _ _ _ _ h2
  rw [run_seq] at h3
  obtain ⟨s4, c4, _, h4⟩ := Re.run_some _ _ _ _ _ h3
  exact reApp_group_ne_nil s4 c4 t m h4

theorem appFromGitRemoteUrl_ok_ne_nil (url a : Str)
    (h : appFromGitRemoteUrl url = (a, none)) : a ≠ [] := by
  unfold appFromGitRemoteUrl at h
  cases hm : appFromRemoteUrlRegex.findStringSubmatch (trim "\r\n ".toList url) with
  | none =>
    simp only [hm] at h
    cases h
  | some m =>
    simp only [hm, Prod.mk.injEq, and_true] at h
    rw [← h]
    exact findStringSubmatch_group_ne_nil _ m hm

theorem apiPhase_flagApp (w : World) (g : Globals) : (apiPhase w g).flagApp = g.flagApp := by
  unfold apiPhase
  simp only []
  split <;> rfl

theorem main_of_config (w : World) (cfg : Config) (argv : List Str)
    (hcfg : w.configFile = some cfg) :
    main w argv = (apiPhase w (flagPhase w { Globals.init with config := cfg } argv).1,
      dispatch commands (flagPhase w { Globals.init with config := cfg } argv).2) := by
  unfold main
  rw [hcfg]

theorem flagPhase_app (w : World) (g : Globals) (a1 : Str) (rest : List Str) :
    flagPhase w g ("-a".toList :: a1 :: rest)
      = ({ g with flagApp := (appFromGitRemote w a1).1 }, rest) := by
  simp [flagPhase, appFromGitRemote]

theorem flagPhase_args (w : World) (g : Globals) (argv : List Str) :
    (flagPhase w g argv).2 = stripAppFlag argv := by
  rcases argv with _ | ⟨a0, _ | ⟨a1, rest⟩⟩
  · rfl
  · rfl
  · by_cases h : a0 = "-a".toList
    · subst h
      rw [flagPhase_app]
      simp only [stripAppFlag, if_true]
    · have h2 : ¬ "-a".toList = a0 := fun e => h e.symm
      simp only [flagPhase, stripAppFlag, if_neg h, if_neg h2]

theorem flagPhase_no_flag (w : World) (g : Globals) (argv : List Str)
    (h : ∀ a1 rest, argv ≠ "-a".toList :: a1 :: rest) : (flagPhase w g argv).1 = g := by
  rcases argv with _ | ⟨a0, _ | ⟨a1, rest⟩⟩
  · rfl
  · rfl
  · have h0 : ¬ "-a".toList = a0 := fun e => h a1 rest (by rw [e])
    simp only [flagPhase, if_neg h0]

theorem urlFromGitRemote_ok (w : World) (remote out : Str)
    (h : w.gitConfig ("remote.".toList ++ remote ++ ".url".toList) = .ok out) :
    urlFromGitRemote w remote = (out, none) := by
  unfold urlFromGitRemote
  rw [h]

/-- C1 (amended): for every invocation whose argument vector starts with
`-a explicitApp`, whenever a git remote named `explicitApp` exists and its URL
matches the app-URL pattern, the application name resolved by `app()` after
`main` has handled the flag is the name extracted from that URL (it is
`explicitApp` itself exactly when that URL names it), for every value of
`FLYNN_APP` and every state of the other remotes. -/
theorem app_explicit_flag_remote (w : World) (cfg : Config) (explicitApp : Str)
    (rest : List Str) (out a : Str) (hcfg : w.configFile = some cfg)
    (hgit : w.gitConfig ("remote.".toList ++ explicitApp ++ ".url".toList) = .ok out)
    (hurl : appFromGitRemoteUrl out = (a, none)) :
    app w (main w ("-a".toList :: explicitApp :: rest)).1 = (a, none) := by
  have hne := appFromGitRemoteUrl_ok_ne_nil out a hurl
  rw [main_of_config w cfg _ hcfg]
  have hflag : (apiPhase w (flagPhase w { Globals.init with config := cfg }
      ("-a".toList :: explicitApp :: rest)).1).flagApp = a := by
    rw [apiPhase_flagApp, flagPhase_app]
    simp [appFromGitRemote, urlFromGitRemote_ok w explicitApp out hgit, hurl]
  unfold app
  simp only [hflag]
  rw [if_pos hne]

theorem app_explicit_flag_remote_witness :
    app wStaging (main wStaging ["-a".toList, "staging".toList, "ps".toList]).1
      = ("demoapp-staging".toList, none) :=
  app_explicit_flag_remote wStaging exampleConfig "staging".toList ["ps".toList]
    "git@git.example.com:demoapp-staging\n".toList "demoapp-staging".toList rfl rfl
    (by decide)

/-- With `-a staging` and a remote `staging` for the application
`demoapp-staging`, the resolved application is `demoapp-staging`, not `staging`. -/
theorem app_explicit_flag_not_literal :
    app wStaging (main wStaging ["-a".toList, "staging".toList, "ps".toList]).1
      = ("demoapp-staging".toList, none) ∧
    (app wStaging (main wStaging ["-a".toList, "staging".toList, "ps".toList]).1).1
      ≠ "staging".toList := by
  decide

/-- C2 (failing input): in a repository without a remote named `flynn`, with no
`-a` flag and no `FLYNN_APP`, the git accessor reports the missing remote, the
extractor reports the mismatch, and yet `app()` returns the empty name with no
error. -/
theorem app_missing_remote_returns_no_error :
    (urlFromGitRemote wNoRemote "flynn".toList).2 ≠ none ∧
    (appFromGitRemoteUrl (urlFromGitRemote wNoRemote "flynn".toList).1).2 ≠ none ∧
    app wNoRemote (main wNoRemote ["ps".toList]).1 = ([], none) := by
  decide

/-- With no flag and no `FLYNN_APP`, `app()` returns the name extracted from the
URL of the remote `flynn` when that remote exists and its URL matches. -/
theorem app_from_flynn_remote (w : World) (g : Globals) (out a : Str)
    (hflag : g.flagApp = []) (henv : w.getenv "FLYNN_APP".toList = [])
    (hgit : w.gitConfig "remote.flynn.url".toList = .ok out)
    (hurl : appFromGitRemoteUrl out = (a, none)) : app w g = (a, none) := by
  have h1 : urlFromGitRemote w "flynn".toList = (out, none) :=
    urlFromGitRemote_ok w "flynn".toList out hgit
  unfold app
  simp only [hflag, henv, appFromGitRemote, h1, hurl, ne_eq, not_true_eq_false, if_false]

/-- The function `app()` never returns an error: `appFromGitRemote` always returns `nil`. -/
theorem app_never_fails (w : World) (g : Globals) : (app w g).2 = none := by
  unfold app
  split
  · rfl
  · split
    · rfl
    · simp [appFromGitRemote]

/-- C8: with no `-a` flag in effect and `FLYNN_APP` set to a non-empty value
`v`, `app()` returns `v` with no error, whatever the git remotes are. -/
theorem app_env_override (w : World) (g : Globals) (v : Str)
    (hflag : g.flagApp = []) (henv : w.getenv "FLYNN_APP".toList = v) (hv : v ≠ []) :
    app w g = (v, none) := by
  unfold app
  simp only [hflag, henv, ne_eq, not_true_eq_false, if_false, hv, not_false_eq_true, if_true]

theorem app_env_override_witness :
    app wAppEnv (main wAppEnv ["ps".toList]).1 = ("envapp".toList, none) :=
  app_env_override wAppEnv (main wAppEnv ["ps".toList]).1 "envapp".toList rfl rfl (by decide)

/-- C3 (failing input): in the scenario of the specification (one server with
git host `git.example.com`, remote `flynn` at `git@git.example.com:demoapp`, no
environment override) the resolved application is `demoapp`, but the server
scan asks git for a remote named `git.example.com`, finds none, and leaves the
API base URL at the built-in default instead of `https://api.example.com`. -/
theorem api_url_scenario_keeps_default :
    app wScenario (main wScenario ["ps".toList]).1 = ("demoapp".toList, none) ∧
    (urlFromGitRemote wScenario "git.example.com".toList).1 = [] ∧
    (main wScenario ["ps".toList]).1.apiURL = "http://localhost:1200".toList ∧
    (main wScenario ["ps".toList]).1.apiURL ≠ "https://api.example.com".toList := by
  decide

theorem flagPhase_keeps (w : World) (g : Globals) (argv : List Str) :
    (flagPhase w g argv).1.config = g.config ∧ (flagPhase w g argv).1.apiURL = g.apiURL := by
  rcases argv with _ | ⟨a0, _ | ⟨a1, rest⟩⟩
  · exact ⟨rfl, rfl⟩
  · exact ⟨rfl, rfl⟩
  · by_cases h : "-a".toList = a0
    · subst h
      rw [flagPhase_app]
      exact ⟨rfl, rfl⟩
    · have := flagPhase_no_flag w g (a0 :: a1 :: rest) (fun a r e => h (by
        injection e with e1 _
        exact e1.symm))
      rw [this]
      exact ⟨rfl, rfl⟩

theorem apiScan_eq (w : World) (servers : List server) (u : Str) :
    apiScan w servers u =
      match (servers.filter (serverMatches w)).getLast? with
      | some serv => serv.ApiUrl
      | none => u := by
  unfold apiScan
  induction servers generalizing u with
  | nil => rfl
  | cons serv rest ih =>
    rw [List.foldl_cons, ih]
    by_cases hm : serverMatches w serv = true
    · rw [if_pos hm, List.filter_cons_of_pos hm]
      cases hf : List.filter (serverMatches w) rest with
      | nil => rfl
      | cons b t =>
        rw [List.getLast?_cons_cons, List.getLast?_eq_getLast (b :: t) (by simp)]
    · rw [if_neg hm, List.filter_cons_of_neg hm]

/-- C9: with `FLYNN_API_URL` unset, for every ordered server list the server
scan of `main` leaves the API base URL equal to the `apiUrl` of the last server,
in configuration order, that passes the scan's match test, and equal to the
built-in default `http://localhost:1200` when no server passes it; the scan
never fails: `main` goes on to dispatch. -/
theorem api_url_scan_last_match (w : World) (cfg : Config) (argv : List Str)
    (hcfg : w.configFile = some cfg) (henv : w.getenv "FLYNN_API_URL".toList = []) :
    (main w argv).1.apiURL =
      (match (cfg.Servers.filter (serverMatches w)).getLast? with
       | some serv => serv.ApiUrl
       | none => "http://localhost:1200".toList) ∧
    (main w argv).2 = dispatch commands (stripAppFlag argv) := by
  rw [main_of_config w cfg argv hcfg]
  constructor
  · have hg : ∀ g : Globals, (apiPhase w g).apiURL = apiScan w g.config.Servers g.apiURL := by
      intro g
      unfold apiPhase
      simp only [henv, ne_eq, not_true_eq_false, if_false]
    have hf := flagPhase_keeps w { Globals.init with config := cfg } argv
    show (apiPhase w _).apiURL = _
    rw [hg, hf.1, hf.2, apiScan_eq]
    rfl
  · show dispatch commands _ = _
    rw [flagPhase_args]

theorem api_url_scan_last_match_witness :
    (lastMatchConfig.Servers.filter (serverMatches wLastMatch) =
        [⟨[], "https://first.example.com".toList, [], []⟩,
         ⟨[], "https://last.example.com".toList, [], []⟩] ∧
      (main wLastMatch ["ps".toList]).1.apiURL = "https://last.example.com".toList) ∧
    ((main wLastMatch ["ps".toList]).1.apiURL =
      (match (lastMatchConfig.Servers.filter (serverMatches wLastMatch)).getLast? with
       | some serv => serv.ApiUrl
       | none => "http://localhost:1200".toList) ∧
    (main wLastMatch ["ps".toList]).2 = dispatch commands (stripAppFlag ["ps".toList])) :=
  ⟨by decide, api_url_scan_last_match wLastMatch lastMatchConfig ["ps".toList] rfl rfl⟩

/-- The match test of the scan on a server: it passes exactly when the text
returned by the git accessor for a remote named after the git host equals the
git host. -/
theorem serverMatches_iff (w : World) (serv : server) :
    serverMatches w serv = true ↔ (urlFromGitRemote w serv.GitHost).1 = serv.GitHost := by
  unfold serverMatches
  exact decide_eq_true_iff

/-- A single matching server is adopted by the scan, a single server that does
not match leaves the URL as it was. -/
theorem apiScan_single (w : World) (serv : server) (u : Str) :
    (serverMatches w serv = true → apiScan w [serv] u = serv.ApiUrl) ∧
    (serverMatches w serv = false → apiScan w [serv] u = u) := by
  constructor
  · intro h
    simp only [apiScan, List.foldl, h, if_true]
  · intro h
    simp only [apiScan, List.foldl, h, Bool.false_eq_true, if_false]

/-- The scan on the three servers of `lastMatchConfig`: the first and the last
pass the match test, the second does not, and the last one is in effect; in
the scenario of the specification no server passes it. -/
theorem apiScan_examples :
    lastMatchConfig.Servers.map (serverMatches wLastMatch) = [true, false, true] ∧
    apiScan wLastMatch lastMatchConfig.Servers "http://localhost:1200".toList
      = "https://last.example.com".toList ∧
    exampleConfig.Servers.map (serverMatches wScenario) = [false] := by
  decide

theorem trimRight_spec (cut s : Str) :
    (∃ t, s = trimRight cut s ++ t ∧ ∀ ch ∈ t, cut.contains ch = true) ∧
    ∀ ch, (trimRight cut s).getLast? = some ch → cut.contains ch = false := by
  unfold trimRight
  constructor
  · refine ⟨(s.reverse.takeWhile (fun c => cut.contains c)).reverse, ?_, ?_⟩
    · rw [← List.reverse_append, List.takeWhile_append_dropWhile, List.reverse_reverse]
    · intro ch h
      rw [List.mem_reverse] at h
      exact List.mem_takeWhile_imp h
  · intro ch h
    rw [List.getLast?_reverse] at h
    have := List.head?_dropWhile_not (fun c => cut.contains c) s.reverse
    rw [h] at this
    simpa using this

/-- C6 (amended): when `FLYNN_API_URL` is set to a non-empty value `s`, the API
base URL in effect after `main`'s start-up resolution is `s` with all of its
trailing slashes removed and otherwise unchanged, for every configuration and
every state of the git remotes, also when a configured server matches. -/
theorem api_url_env_override (w : World) (cfg : Config) (argv : List Str) (s : Str)
    (hcfg : w.configFile = some cfg) (henv : w.getenv "FLYNN_API_URL".toList = s)
    (hs : s ≠ []) :
    (main w argv).1.apiURL = trimRight "/".toList s ∧
    (∃ n, s = (main w argv).1.apiURL ++ List.replicate n '/') ∧
    (main w argv).1.apiURL.getLast? ≠ some '/' := by
  have h1 : (main w argv).1.apiURL = trimRight "/".toList s := by
    rw [main_of_config w cfg argv hcfg]
    show (apiPhase w _).apiURL = _
    unfold apiPhase
    simp only [henv, ne_eq, hs, not_false_eq_true, if_true]
  obtain ⟨⟨t, ht, hall⟩, hlast⟩ := trimRight_spec "/".toList s
  refine ⟨h1, ⟨t.length, ?_⟩, ?_⟩
  · rw [h1]
    have : t = List.replicate t.length '/' := by
      apply List.eq_replicate_of_mem
      intro ch hch
      have := hall ch hch
      simpa using this
    rw [← this]
    exact ht
  · rw [h1]
    intro h
    have := hlast '/' h
    revert this
    decide

theorem api_url_env_override_witness :
    (main wApiEnv ["ps".toList]).1.apiURL
        = trimRight "/".toList "https://override.example.com//".toList ∧
    (∃ n, "https://override.example.com//".toList
        = (main wApiEnv ["ps".toList]).1.apiURL ++ List.replicate n '/') ∧
    (main wApiEnv ["ps".toList]).1.apiURL.getLast? ≠ some '/' :=
  api_url_env_override wApiEnv exampleConfig ["ps".toList]
    "https://override.example.com//".toList rfl rfl (by decide)

/-- With `FLYNN_API_URL` set to `https://override.example.com//`, both trailing
slashes are removed: the API base URL is not the value with its one trailing
slash dropped. -/
theorem api_url_env_two_slashes :
    (main wApiEnv ["ps".toList]).1.apiURL = "https://override.example.com".toList ∧
    dropTrailingSlash "https://override.example.com//".toList
      = "https://override.example.com/".toList ∧
    (main wApiEnv ["ps".toList]).1.apiURL
      ≠ dropTrailingSlash "https://override.example.com//".toList := by
  decide

set_option maxRecDepth 100000 in
/-- C5 (failing input): for the remote URL `https://example.com/my%20app`, which
does not match the pattern, the extractor returns the empty name and a
mismatch error, but the error is built with the URL inside the format string
of `fmt.Errorf`, so `%20a` is read as a formatting directive and the error
text does not contain the URL. -/
theorem appFromGitRemoteUrl_percent_error_text :
    appFromGitRemoteUrl "https://example.com/my%20app".toList
      = ([], some (.errorf
          "could not find app name in https://example.com/my%20app git remote".toList [])) ∧
    (appFromGitRemoteUrl "https://example.com/my%20app".toList).2.bind GoError.text0
      = some "could not find app name in https://example.com/my%!a(MISSING)pp git remote".toList ∧
    ¬ ("https://example.com/my%20app".toList <:+:
        sprintf0 "could not find app name in https://example.com/my%20app git remote".toList) := by
  decide

theorem runCommand_eq (name : Str) (rest : List Str) (cmds : List Command) :
    runCommand name rest cmds =
      match firstRunnable cmds name with
      | none => .usage (some name)
      | some cmd =>
        match cmd.Run, flagParse cmd.Flag rest with
        | some handler, .ok positional => .ran handler positional
        | some _, .error _ => .exit 2
        | none, _ => .usage (some name) := by
  unfold firstRunnable
  induction cmds with
  | nil => rfl
  | cons cmd cmds ih =>
    unfold runCommand
    by_cases hn : cmd.Name = name
    · cases hr : cmd.Run with
      | none =>
        simp only [hn, if_true, hr, List.find?, Command.Runnable, Option.isSome_none,
          decide_True, Bool.and_false]
        exact ih
      | some handler =>
        simp only [hn, if_true, hr, List.find?, Command.Runnable, Option.isSome_some,
          decide_True, Bool.and_true]
        cases flagParse cmd.Flag rest <;> rfl
    · simp only [hn, if_false, List.find?, decide_False, Bool.false_and]
      exact ih

theorem firstRunnable_run (cmds : List Command) (name : Str) (cmd : Command)
    (h : firstRunnable cmds name = some cmd) : ∃ handler, cmd.Run = some handler := by
  unfold firstRunnable at h
  have := List.find?_some h
  simp only [Bool.and_eq_true, decide_eq_true_eq, Command.Runnable] at this
  exact Option.isSome_iff_exists.mp this.2

/-- C7 (amended): after the optional `-a APP` prefix, `main` dispatches on the
first remaining argument.  A handler is invoked if and only if that argument
equals the `Name()` of a registered runnable command and the flag parsing of
the rest by the first such command, in registry order, succeeds; it is then
the handler of that command, called once with the positional arguments left
over by the flag parsing.  When that flag parsing fails no handler is invoked
and the process exits with status 2; for a name that no runnable command of
the registry has, and for an empty argument list, no handler is invoked and
the process takes the usage path. -/
theorem main_dispatch_spec (w : World) (cfg : Config) (argv : List Str)
    (hcfg : w.configFile = some cfg) :
    (main w argv).2 = dispatch commands (stripAppFlag argv) ∧
    ∀ (cmds : List Command) (args : List Str),
      (∀ handler positional, dispatch cmds args = .ran handler positional ↔
        ∃ name rest cmd, args = name :: rest ∧ firstRunnable cmds name = some cmd ∧
          cmd.Run = some handler ∧ flagParse cmd.Flag rest = .ok positional) ∧
      (∀ name rest cmd err, args = name :: rest → firstRunnable cmds name = some cmd →
          flagParse cmd.Flag rest = .error err → dispatch cmds args = .exit 2) ∧
      (∀ name rest, args = name :: rest → firstRunnable cmds name = none →
          dispatch cmds args = .usage (some name)) ∧
      (args = [] → dispatch cmds args = .usage none) := by
  constructor
  · rw [main_of_config w cfg argv hcfg]
    show dispatch commands _ = _
    rw [flagPhase_args]
  · intro cmds args
    refine ⟨?_, ?_, ?_, ?_⟩
    · intro handler positional
      constructor
      · intro h
        cases args with
        | nil => cases h
        | cons name rest =>
          simp only [dispatch] at h
          rw [runCommand_eq] at h
          cases hf : firstRunnable cmds name with
          | none =>
            rw [hf] at h
            cases h
          | some cmd =>
            rw [hf] at h
            obtain ⟨h0, hrun⟩ := firstRunnable_run cmds name cmd hf
            cases hp : flagParse cmd.Flag rest with
            | error e =>
              simp only [hrun, hp] at h
              cases h
            | ok pos =>
              simp only [hrun, hp, Outcome.ran.injEq] at h
              exact ⟨name, rest, cmd, rfl, hf, by rw [hrun, h.1], by rw [hp, h.2]⟩
      · rintro ⟨name, rest, cmd, rfl, hf, hrun, hp⟩
        simp only [dispatch]
        rw [runCommand_eq, hf]
        simp only [hrun, hp]
    · rintro name rest cmd err rfl hf hp
      obtain ⟨h0, hrun⟩ := firstRunnable_run cmds name cmd hf
      simp only [dispatch]
      rw [runCommand_eq, hf]
      simp only [hrun, hp]
    · rintro name rest rfl hf
      simp only [dispatch]
      rw [runCommand_eq, hf]
    · rintro rfl
      rfl

theorem main_dispatch_spec_witness :
    (main wScenario ["-a".toList, "demoapp".toList, "create".toList, "newapp".toList]).2
      = dispatch commands
          (stripAppFlag ["-a".toList, "demoapp".toList, "create".toList, "newapp".toList]) ∧
    ∀ (cmds : List Command) (args : List Str),
      (∀ handler positional, dispatch cmds args = .ran handler positional ↔
        ∃ name rest cmd, args = name :: rest ∧ firstRunnable cmds name = some cmd ∧
          cmd.Run = some handler ∧ flagParse cmd.Flag rest = .ok positional) ∧
      (∀ name rest cmd err, args = name :: rest → firstRunnable cmds name = some cmd →
          flagParse cmd.Flag rest = .error err → dispatch cmds args = .exit 2) ∧
      (∀ name rest, args = name :: rest → firstRunnable cmds name = none →
          dispatch cmds args = .usage (some name)) ∧
      (args = [] → dispatch cmds args = .usage none) :=
  main_dispatch_spec wScenario exampleConfig
    ["-a".toList, "demoapp".toList, "create".toList, "newapp".toList] rfl

/-- For `flynn create -x`, `create` is the name of a registered runnable command,
yet no handler is invoked: the flag parsing of `-x` fails and the process
exits with status 2. -/
theorem create_bad_flag_invokes_no_handler :
    (firstRunnable commands "create".toList).map Command.Usage = some "create APP".toList ∧
    (firstRunnable commands "create".toList).map Command.Runnable = some true ∧
    (main wScenario ["create".toList, "-x".toList]).2 = .exit 2 ∧
    (main wScenario ["create".toList, "newapp".toList]).2
      = .ran "runCreate".toList ["newapp".toList] := by
  decide

end Flynn
